import Mathlib

/-!
Verification of the sharded data-loading and image-tiling subsystem of the
InternVL repository.  Each Python function is embedded shallowly as a Lean
definition (machine integers become `Nat`/`Int`, fallible code returns
`Option`/`Except`, stateful code passes the state explicitly), and the
spec's testable properties are settled as theorems about the embeddings.
-/

namespace InternVL

/-! ## InferenceSampler (`eval/refcoco/evaluate_grounding.py`)

`_get_local_indices(total_size, world_size, rank)` computes
`shard_size = total_size // world_size`, `left = total_size % world_size`,
`shard_sizes = [shard_size + int(r < left) for r in range(world_size)]`,
`begin = sum(shard_sizes[:rank])`,
`end = min(sum(shard_sizes[:rank + 1]), total_size)` and returns
`range(begin, end)`.
-/

/-- Per-rank size `shard_sizes[r]` from `InferenceSampler._get_local_indices`:
`total_size // world_size + int(r < total_size % world_size)`. -/
def shardSizeAt (total ws r : ℕ) : ℕ :=
  total / ws + (if r < total % ws then 1 else 0)

/-- Prefix sum `sum(shard_sizes[:rank])` from `InferenceSampler._get_local_indices`. -/
def sliceBegin (total ws rank : ℕ) : ℕ :=
  ∑ x ∈ Finset.range rank, shardSizeAt total ws x

/-- The pair `(begin, end)` that `InferenceSampler._get_local_indices` wraps in the
returned `range(begin, end)`. -/
def get_local_indices (total ws rank : ℕ) : ℕ × ℕ :=
  (sliceBegin total ws rank, min (sliceBegin total ws (rank + 1)) total)

/-- Closed form of the prefix sums of the per-rank sizes. -/
lemma sliceBegin_eq (total ws rank : ℕ) :
    sliceBegin total ws rank = total / ws * rank + min rank (total % ws) := by
  induction rank with
  | zero => simp [sliceBegin]
  | succ r ih =>
      rw [sliceBegin, Finset.sum_range_succ, ← sliceBegin, ih, shardSizeAt]
      rcases lt_or_le r (total % ws) with h | h
      · rw [if_pos h, min_eq_left h.le, min_eq_left h, Nat.mul_succ]
        omega
      · rw [if_neg (not_lt.mpr h), min_eq_right h, min_eq_right (h.trans (Nat.le_succ r)),
          Nat.mul_succ]
        omega

lemma sliceBegin_mono (total ws : ℕ) : Monotone (sliceBegin total ws) := by
  intro a b hab
  simp only [sliceBegin_eq]
  exact Nat.add_le_add (Nat.mul_le_mul_left _ hab) (min_le_min_right _ hab)

/-- The prefix sums exhaust the whole index space at `rank = world_size`. -/
lemma sliceBegin_world (total ws : ℕ) (hw : 0 < ws) :
    sliceBegin total ws ws = total := by
  rw [sliceBegin_eq, min_eq_right (Nat.mod_lt total hw).le]
  rw [Nat.mul_comm]
  exact Nat.div_add_mod total ws

lemma sliceBegin_le_total (total ws r : ℕ) (hw : 0 < ws) (hr : r ≤ ws) :
    sliceBegin total ws r ≤ total := by
  calc sliceBegin total ws r ≤ sliceBegin total ws ws := sliceBegin_mono total ws hr
    _ = total := sliceBegin_world total ws hw

/-- Every index below a prefix-sum boundary lies in some earlier rank's block. -/
lemma exists_block (total ws : ℕ) :
    ∀ n i, i < sliceBegin total ws n →
      ∃ r, r < n ∧ sliceBegin total ws r ≤ i ∧ i < sliceBegin total ws (r + 1) := by
  intro n
  induction n with
  | zero => intro i hi; simp [sliceBegin] at hi
  | succ m ih =>
      intro i hi
      rcases lt_or_le i (sliceBegin total ws m) with h | h
      · obtain ⟨r, hr, h1, h2⟩ := ih i h
        exact ⟨r, hr.trans (Nat.lt_succ_self m), h1, h2⟩
      · exact ⟨m, Nat.lt_succ_self m, h, hi⟩

/-- C1: For every `total_size > 0` and `world_size > 0`, the per-rank
ranges computed by `InferenceSampler._get_local_indices` are contiguous
(each rank's `end` is the next rank's `begin`), pairwise disjoint, their
union is exactly `[0, total_size)`, the per-rank sizes differ by at most 1,
and the first `total_size % world_size` ranks each get one extra element. -/
theorem inference_sampler_partition (total ws : ℕ) (htotal : 0 < total) (hws : 0 < ws) :
    (∀ r, r < ws →
      (get_local_indices total ws r).2 = (get_local_indices total ws (r + 1)).1) ∧
    (∀ r₁ r₂ i, r₁ < ws → r₂ < ws → r₁ ≠ r₂ →
      ¬((get_local_indices total ws r₁).1 ≤ i ∧ i < (get_local_indices total ws r₁).2 ∧
        (get_local_indices total ws r₂).1 ≤ i ∧ i < (get_local_indices total ws r₂).2)) ∧
    (∀ i, i < total ↔ ∃ r, r < ws ∧
      (get_local_indices total ws r).1 ≤ i ∧ i < (get_local_indices total ws r).2) ∧
    (∀ r, r < ws →
      (get_local_indices total ws r).2 - (get_local_indices total ws r).1 =
        total / ws + (if r < total % ws then 1 else 0)) ∧
    (∀ r₁ r₂, r₁ < ws → r₂ < ws →
      (get_local_indices total ws r₁).2 - (get_local_indices total ws r₁).1 ≤
      ((get_local_indices total ws r₂).2 - (get_local_indices total ws r₂).1) + 1) := by
  have hend : ∀ r, r < ws →
      (get_local_indices total ws r).2 = sliceBegin total ws (r + 1) := by
    intro r hr
    exact min_eq_left (sliceBegin_le_total total ws (r + 1) hws hr)
  have hsize : ∀ r, r < ws →
      (get_local_indices total ws r).2 - (get_local_indices total ws r).1 =
        shardSizeAt total ws r := by
    intro r hr
    rw [hend r hr]
    show sliceBegin total ws (r + 1) - sliceBegin total ws r = _
    rw [sliceBegin, Finset.sum_range_succ, ← sliceBegin, Nat.add_sub_cancel_left]
  refine ⟨?_, ?_, ?_, ?_, ?_⟩
  · intro r hr
    rw [hend r hr]; rfl
  · intro r₁ r₂ i h1 h2 hne ⟨ha1, ha2, hb1, hb2⟩
    rw [hend r₁ h1] at ha2
    rw [hend r₂ h2] at hb2
    rcases Nat.lt_or_ge r₁ r₂ with h | h
    · exact absurd (lt_of_lt_of_le ha2 (sliceBegin_mono total ws h)) (not_lt.mpr hb1)
    · have h' : r₂ < r₁ := lt_of_le_of_ne h (Ne.symm hne)
      exact absurd (lt_of_lt_of_le hb2 (sliceBegin_mono total ws h')) (not_lt.mpr ha1)
  · intro i
    constructor
    · intro hi
      have : i < sliceBegin total ws ws := by rw [sliceBegin_world total ws hws]; exact hi
      obtain ⟨r, hr, hle, hlt⟩ := exists_block total ws ws i this
      refine ⟨r, hr, hle, ?_⟩
      rw [hend r hr]; exact hlt
    · rintro ⟨r, hr, _, hlt⟩
      have h2 : i < min (sliceBegin total ws (r + 1)) total := hlt
      exact lt_of_lt_of_le h2 (min_le_right _ _)
  · intro r hr
    rw [hsize r hr]; rfl
  · intro r₁ r₂ h1 h2
    rw [hsize r₁ h1, hsize r₂ h2, shardSizeAt, shardSizeAt]
    split_ifs <;> omega

/-- Witness for C1 at `total_size = 5`, `world_size = 2`. -/
theorem inference_sampler_partition_witness :
    (0 < 5 ∧ 0 < 2) ∧
    (∀ i, i < 5 ↔ ∃ r, r < 2 ∧
      (get_local_indices 5 2 r).1 ≤ i ∧ i < (get_local_indices 5 2 r).2) :=
  ⟨⟨by decide, by decide⟩,
    (inference_sampler_partition 5 2 (by decide) (by decide)).2.2.1⟩

/-! ## LazySupervisedDataset rank slicing (`internvl_chat_pretrain.py`)

`__init__` keeps `raw_data[lines_per_rank * rank : lines_per_rank * (rank+1)]`
with `lines_per_rank = total_lines // world_size`, and `__len__` returns
`len(raw_data) * world_size`.
-/

/-- Python list slice `l[a:b]` for `0 ≤ a ≤ b` (clamped at the list end). -/
def pySlice {α : Type} (l : List α) (a b : ℕ) : List α := (l.drop a).take (b - a)

/-- Rank slice of `LazySupervisedDataset.__init__`: the contiguous block of annotation
lines kept by one rank. -/
def lazyRawData {α : Type} (lines : List α) (ws rank : ℕ) : List α :=
  pySlice lines (lines.length / ws * rank) (lines.length / ws * (rank + 1))

/-- Reported length `LazySupervisedDataset.__len__`, that is `len(self.raw_data) * world_size`. -/
def lazyLen {α : Type} (lines : List α) (ws rank : ℕ) : ℕ :=
  (lazyRawData lines ws rank).length * ws

/-- C10: Each rank keeps exactly the annotation lines
`[lines_per_rank * rank, lines_per_rank * (rank+1))`, `__len__` returns
`lines_per_rank * world_size`, every kept line lies below
`lines_per_rank * world_size`, and when `total_lines % world_size ≠ 0` the
trailing `total_lines % world_size` lines belong to no rank's block. -/
theorem lazy_dataset_rank_slice {α : Type} (lines : List α) (ws rank : ℕ)
    (hws : 0 < ws) (hrank : rank < ws) :
    (lazyRawData lines ws rank).length = lines.length / ws ∧
    (∀ j, j < lines.length / ws →
      (lazyRawData lines ws rank).get? j = lines.get? (lines.length / ws * rank + j)) ∧
    lazyLen lines ws rank = lines.length / ws * ws ∧
    (∀ j, j < lines.length / ws →
      lines.length / ws * rank + j < lines.length / ws * ws) ∧
    (lines.length % ws ≠ 0 →
      lines.length / ws * ws < lines.length ∧
      ∀ k r, lines.length / ws * ws ≤ k → r < ws →
        ¬(lines.length / ws * r ≤ k ∧ k < lines.length / ws * (r + 1))) := by
  have hqws : lines.length / ws * ws ≤ lines.length := Nat.div_mul_le_self _ _
  have hsub : lines.length / ws * (rank + 1) - lines.length / ws * rank =
      lines.length / ws := by rw [Nat.mul_succ]; exact Nat.add_sub_cancel_left _ _
  have hrank1 : lines.length / ws * (rank + 1) ≤ lines.length / ws * ws :=
    Nat.mul_le_mul_left _ hrank
  have hkey : lines.length / ws * rank + lines.length / ws ≤ lines.length := by
    rw [← Nat.mul_succ]
    exact le_trans hrank1 hqws
  have hlen : (lazyRawData lines ws rank).length = lines.length / ws := by
    rw [lazyRawData, pySlice, List.length_take, List.length_drop, hsub]
    refine min_eq_left (Nat.le_sub_of_add_le ?_)
    rw [Nat.add_comm]
    exact hkey
  refine ⟨hlen, ?_, ?_, ?_, ?_⟩
  · intro j hj
    rw [lazyRawData, pySlice, hsub, List.get?_take hj, List.get?_drop]
  · rw [lazyLen, hlen]
  · intro j hj
    have := hrank1
    rw [Nat.mul_succ] at this
    omega
  · intro hmod
    have hdm := Nat.div_add_mod lines.length ws
    constructor
    · rw [Nat.mul_comm]
      omega
    · intro k r hk hr ⟨_, h2⟩
      have : lines.length / ws * (r + 1) ≤ lines.length / ws * ws :=
        Nat.mul_le_mul_left _ hr
      omega

/-- Witness for C10 at 5 annotation lines, 2 ranks, rank 0: two lines kept,
reported length 4, the fifth line unassigned. -/
theorem lazy_dataset_rank_slice_witness :
    (0 < 2 ∧ (0 : ℕ) < 2) ∧ lazyLen [0, 1, 2, 3, 4] 2 0 = 4 :=
  ⟨⟨by decide, by decide⟩,
    (lazy_dataset_rank_slice [0, 1, 2, 3, 4] 2 0 (by decide) (by decide)).2.2.1⟩

/-! ## InterleavedDataset.__getitem__ retry loop (`interleaved_dataset.py`)

```
while True:
    try:
        item = self.getitem(index)
        break
    except Exception as err:
        print(err)
        index = (index + 1) % len(self)
```
-/

/-- The index advance performed by `__getitem__` after a failed assembly:
`index = (index + 1) % len(self)`. -/
def advanceIndex (len index : ℕ) : ℕ := (index + 1) % len

/-- Iteration of `advanceIndex`, `k` times starting from `index`. -/
def advanceIter (len index : ℕ) : ℕ → ℕ
  | 0 => index
  | k + 1 => advanceIndex len (advanceIter len index k)

/-- The `while True` retry loop of `InterleavedDataset.__getitem__`, with the
fallible assembly `self.getitem` abstracted as `g : ℕ → Option α` (`none`
models a raised exception) and explicit fuel bounding the number of observed
iterations (a `none` result means the loop is still retrying). -/
def getitemLoop {α : Type} (len : ℕ) (g : ℕ → Option α) : ℕ → ℕ → Option α
  | 0, _ => none
  | fuel + 1, index =>
    match g index with
    | some item => some item
    | none => getitemLoop len g fuel (advanceIndex len index)

lemma advanceIter_shift (len index k : ℕ) :
    advanceIter len index (k + 1) = advanceIter len (advanceIndex len index) k := by
  induction k with
  | zero => rfl
  | succ m ih => rw [advanceIter, ih, advanceIter]

/-- C3: The dataset-level `__getitem__` never propagates an assembly
failure: whenever assembly at the current index fails it advances to
`(index + 1) % length`, and it returns exactly the first sample along that
advance sequence that assembles successfully; while all attempted indices
fail it keeps retrying (yielding no result rather than an exception). -/
theorem interleaved_getitem_retry {α : Type} (len : ℕ) (g : ℕ → Option α) (index : ℕ) :
    (∀ k item, g (advanceIter len index k) = some item →
      (∀ j, j < k → g (advanceIter len index j) = none) →
      ∀ fuel, k < fuel → getitemLoop len g fuel index = some item) ∧
    (∀ fuel, (∀ j, j < fuel → g (advanceIter len index j) = none) →
      getitemLoop len g fuel index = none) := by
  constructor
  · intro k
    induction k generalizing index with
    | zero =>
        intro item hk _ fuel hfuel
        obtain ⟨f, rfl⟩ := Nat.exists_eq_succ_of_ne_zero (Nat.pos_iff_ne_zero.mp hfuel)
        simp only [advanceIter] at hk
        rw [getitemLoop, hk]
    | succ m ih =>
        intro item hk hj fuel hfuel
        obtain ⟨f, rfl⟩ := Nat.exists_eq_succ_of_ne_zero
          (Nat.pos_iff_ne_zero.mp (Nat.lt_of_le_of_lt (Nat.zero_le _) hfuel))
        have h0 : g index = none := hj 0 (Nat.succ_pos m)
        rw [getitemLoop, h0]
        refine ih (advanceIndex len index) item ?_ ?_ f (Nat.lt_of_succ_lt_succ hfuel)
        · rw [← advanceIter_shift]
          exact hk
        · intro j hjm
          rw [← advanceIter_shift]
          exact hj (j + 1) (Nat.succ_lt_succ hjm)
  · intro fuel
    induction fuel generalizing index with
    | zero => intro _; rfl
    | succ f ih =>
        intro hall
        have h0 : g index = none := hall 0 (Nat.succ_pos f)
        rw [getitemLoop, h0]
        refine ih (advanceIndex len index) ?_
        intro j hj
        rw [← advanceIter_shift]
        exact hall (j + 1) (Nat.succ_lt_succ hj)

/-- A concrete fallible assembly for the C3 witness: index 1 succeeds with
value 42, all other indices fail. -/
def assembleEx : ℕ → Option ℕ := fun n => if n = 1 then some 42 else none

/-- Witness for C3: with length 3, starting at index 0, the loop skips the
failing index 0 and returns the sample assembled at index 1. -/
theorem interleaved_getitem_retry_witness :
    getitemLoop 3 assembleEx 2 0 = some 42 ∧ getitemLoop 3 assembleEx 1 0 = none :=
  ⟨(interleaved_getitem_retry 3 assembleEx 0).1 1 42 (by decide)
      (by decide) 2 (by decide),
    (interleaved_getitem_retry 3 assembleEx 0).2 1 (by decide)⟩

/-! ## Dynamic tiling (`LazySupervisedDataset.dynamic_preprocess`)

After the grid `(cols, rows)` is chosen, the image is resized to
`(image_size*cols, image_size*rows)` and cropped into `cols*rows` boxes in
row-major order; with `use_thumbnail` and more than one tile, one extra
whole-image tile resized to `image_size × image_size` is appended.
-/

/-- A crop box `(left, top, right, bottom)` as passed to `Image.crop`; the
produced tile's pixel size is `(right - left) × (bottom - top)`. -/
structure TileBox where
  left : ℕ
  top : ℕ
  right : ℕ
  bottom : ℕ
deriving DecidableEq

/-- The `i`-th crop box of `dynamic_preprocess`, where
`cpr = target_width // image_size` is the number of columns per row. -/
def cropBox (S cpr i : ℕ) : TileBox :=
  ⟨i % cpr * S, i / cpr * S, (i % cpr + 1) * S, (i / cpr + 1) * S⟩

/-- Tiling of `LazySupervisedDataset.dynamic_preprocess`, lines 284-305: the list of
tiles produced for a chosen grid `(cols, rows)` (`blocks = cols*rows`,
`target_width = image_size * cols`), with the optional thumbnail tile. -/
def dynamic_preprocess_tiles (S : ℕ) (grid : ℕ × ℕ) (useThumbnail : Bool) : List TileBox :=
  if useThumbnail ∧
      ((List.range (grid.1 * grid.2)).map (cropBox S (S * grid.1 / S))).length ≠ 1 then
    (List.range (grid.1 * grid.2)).map (cropBox S (S * grid.1 / S)) ++ [⟨0, 0, S, S⟩]
  else
    (List.range (grid.1 * grid.2)).map (cropBox S (S * grid.1 / S))

/-- C4: For every grid with `cols, rows ≥ 1` (as chosen by the tiling
engine) and positive tile size: without the thumbnail option `tile` returns
exactly `cols*rows` tiles; with it, `cols*rows + 1` tiles when
`cols*rows > 1` and exactly 1 tile when `cols*rows = 1`; and every returned
tile (thumbnail included) is exactly `tile_size × tile_size`. -/
theorem dynamic_preprocess_tile_count (S cols rows : ℕ) (hS : 0 < S)
    (hc : 1 ≤ cols) (hr : 1 ≤ rows) (useThumbnail : Bool) :
    (useThumbnail = false →
      (dynamic_preprocess_tiles S (cols, rows) useThumbnail).length = cols * rows) ∧
    (useThumbnail = true →
      (1 < cols * rows →
        (dynamic_preprocess_tiles S (cols, rows) useThumbnail).length = cols * rows + 1) ∧
      (cols * rows = 1 →
        (dynamic_preprocess_tiles S (cols, rows) useThumbnail).length = 1)) ∧
    (∀ t ∈ dynamic_preprocess_tiles S (cols, rows) useThumbnail,
      t.right - t.left = S ∧ t.bottom - t.top = S) := by
  have hmaplen :
      ((List.range (cols * rows)).map (cropBox S (S * cols / S))).length = cols * rows := by
    rw [List.length_map, List.length_range]
  refine ⟨?_, ?_, ?_⟩
  · intro hthumb
    rw [dynamic_preprocess_tiles, hthumb]
    simp only [Bool.false_eq_true, false_and, if_false]
    exact hmaplen
  · intro hthumb
    constructor
    · intro hgt
      rw [dynamic_preprocess_tiles, hthumb]
      rw [if_pos ⟨rfl, by rw [hmaplen]; omega⟩]
      rw [List.length_append, hmaplen]
      rfl
    · intro heq
      rw [dynamic_preprocess_tiles, hthumb]
      rw [if_neg (by rw [hmaplen, heq]; simp)]
      rw [hmaplen, heq]
  · intro t ht
    have hdims : ∀ i : ℕ, (cropBox S (S * cols / S) i).right -
        (cropBox S (S * cols / S) i).left = S ∧
        (cropBox S (S * cols / S) i).bottom - (cropBox S (S * cols / S) i).top = S := by
      intro i
      constructor
      · show (i % (S * cols / S) + 1) * S - i % (S * cols / S) * S = S
        rw [Nat.succ_mul, Nat.add_sub_cancel_left]
      · show (i / (S * cols / S) + 1) * S - i / (S * cols / S) * S = S
        rw [Nat.succ_mul, Nat.add_sub_cancel_left]
    rw [dynamic_preprocess_tiles] at ht
    split at ht
    · rcases List.mem_append.mp ht with hin | hin
      · obtain ⟨i, _, rfl⟩ := List.mem_map.mp hin
        exact hdims i
      · rcases List.mem_singleton.mp hin with rfl
        exact ⟨Nat.sub_zero S, Nat.sub_zero S⟩
    · obtain ⟨i, _, rfl⟩ := List.mem_map.mp ht
      exact hdims i

/-- Witness for C4 at `tile_size = 2`, grid `(2,1)`, thumbnail on:
3 tiles are produced. -/
theorem dynamic_preprocess_tile_count_witness :
    (dynamic_preprocess_tiles 2 (2, 1) true).length = 3 :=
  ((dynamic_preprocess_tile_count 2 2 1 (by decide) (by decide) (by decide)
    true).2.1 rfl).1 (by decide)

/-! ## Grid search (`LazySupervisedDataset.find_closest_aspect_ratio`)

The Python loop scores each candidate grid `(i, j)` by
`abs(aspect_ratio - i/j)` starting from `best_ratio_diff = inf`,
`best_ratio = (1, 1)`, keeps the first strict improvement, and then applies
two special-case overrides.  Real arithmetic is modelled exactly over `ℚ`;
the candidate set (a Python `set`, whose iteration order is unspecified) is
passed in as an explicit list.
-/

/-- Score `abs(aspect_ratio - ratio[0] / ratio[1])`. -/
def ratioDiff (ar : ℚ) (r : ℕ × ℕ) : ℚ := |ar - (r.1 : ℚ) / (r.2 : ℚ)|

/-- Comparison `ratio_diff < best_ratio_diff`, where `none` models the initial
`float('inf')` (every finite score beats it). -/
def beatsBest (d : ℚ) : Option ℚ → Bool
  | none => true
  | some bd => decide (d < bd)

/-- The scoring loop of `find_closest_aspect_ratio`, carrying
`(best_ratio_diff, best_ratio)`. -/
def facrLoop (ar : ℚ) : List (ℕ × ℕ) → Option ℚ × (ℕ × ℕ) → Option ℚ × (ℕ × ℕ)
  | [], st => st
  | r :: rest, (bd, br) =>
    if beatsBest (ratioDiff ar r) bd then
      facrLoop ar rest (some (ratioDiff ar r), r)
    else
      facrLoop ar rest (bd, br)

/-- The first special-case override (`internvl_chat_pretrain.py`, lines
259-262): a winning `(2,3)` or `(3,2)` on an image smaller than four tiles
is downgraded to `(2,2)`. -/
def override1 (best : ℕ × ℕ) (width height imageSize : ℕ) : ℕ × ℕ :=
  if (best = (2, 3) ∨ best = (3, 2)) ∧ width * height < imageSize * imageSize * 4
  then (2, 2) else best

/-- Both special-case overrides applied after the search
(`internvl_chat_pretrain.py`, lines 259-267): after `override1`, a winning
`(1,1)` or `(2,2)` is re-decided by area alone. -/
def applyOverrides (best : ℕ × ℕ) (width height imageSize : ℕ) : ℕ × ℕ :=
  if override1 best width height imageSize = (1, 1) ∨
      override1 best width height imageSize = (2, 2) then
    (if width * height < imageSize * imageSize then (1, 1) else (2, 2))
  else override1 best width height imageSize

/-- Full search `LazySupervisedDataset.find_closest_aspect_ratio`. -/
def find_closest_aspect_ratio (ar : ℚ) (targetRatios : List (ℕ × ℕ))
    (width height imageSize : ℕ) : ℕ × ℕ :=
  applyOverrides (facrLoop ar targetRatios (none, (1, 1))).2 width height imageSize

/-- One deterministic enumeration of the candidate-grid set built by
`dynamic_preprocess`: all `(i, j)` with `i, j ≥ 1` and
`min_num ≤ i*j ≤ max_num` (the Python `set` comprehension produces exactly
this set, in an unspecified iteration order). -/
def targetRatiosList (minNum maxNum : ℕ) : List (ℕ × ℕ) :=
  ((List.range (maxNum + 1)).bind
      (fun i => (List.range (maxNum + 1)).map (fun j => (i, j)))).filter
    (fun p => decide (1 ≤ p.1 ∧ 1 ≤ p.2 ∧ minNum ≤ p.1 * p.2 ∧ p.1 * p.2 ≤ maxNum))

lemma facrLoop_mono (ar : ℚ) (L : List (ℕ × ℕ)) :
    ∀ (b : ℚ) (br : ℕ × ℕ), ∃ b', (facrLoop ar L (some b, br)).1 = some b' ∧ b' ≤ b := by
  induction L with
  | nil => intro b br; exact ⟨b, rfl, le_refl b⟩
  | cons r rest ih =>
      intro b br
      simp only [facrLoop]
      by_cases h : beatsBest (ratioDiff ar r) (some b) = true
      · rw [if_pos h]
        obtain ⟨b', h1, h2⟩ := ih (ratioDiff ar r) r
        have hlt : ratioDiff ar r < b := of_decide_eq_true h
        exact ⟨b', h1, h2.trans hlt.le⟩
      · rw [if_neg h]
        exact ih b br

lemma facrLoop_spec (ar : ℚ) (L : List (ℕ × ℕ)) :
    ∀ st, facrLoop ar L st = st ∨
      ((facrLoop ar L st).2 ∈ L ∧
        (facrLoop ar L st).1 = some (ratioDiff ar (facrLoop ar L st).2)) := by
  induction L with
  | nil => intro st; exact Or.inl rfl
  | cons r rest ih =>
      intro st
      obtain ⟨bd, br⟩ := st
      simp only [facrLoop]
      by_cases h : beatsBest (ratioDiff ar r) bd = true
      · rw [if_pos h]
        rcases ih (some (ratioDiff ar r), r) with heq | ⟨hmem, hval⟩
        · right
          rw [heq]
          exact ⟨List.mem_cons_self r rest, rfl⟩
        · exact Or.inr ⟨List.mem_cons_of_mem r hmem, hval⟩
      · rw [if_neg h]
        rcases ih (bd, br) with heq | ⟨hmem, hval⟩
        · exact Or.inl heq
        · exact Or.inr ⟨List.mem_cons_of_mem r hmem, hval⟩

lemma facrLoop_min (ar : ℚ) (L : List (ℕ × ℕ)) :
    ∀ st p, p ∈ L → ∃ b', (facrLoop ar L st).1 = some b' ∧ b' ≤ ratioDiff ar p := by
  induction L with
  | nil => intro st p hp; exact absurd hp (List.not_mem_nil p)
  | cons r rest ih =>
      intro st p hp
      obtain ⟨bd, br⟩ := st
      simp only [facrLoop]
      by_cases h : beatsBest (ratioDiff ar r) bd = true
      · rw [if_pos h]
        rcases List.mem_cons.mp hp with rfl | hrest
        · exact facrLoop_mono ar rest (ratioDiff ar p) p
        · exact ih _ p hrest
      · rw [if_neg h]
        rcases List.mem_cons.mp hp with rfl | hrest
        · cases bd with
          | none => exact absurd rfl h
          | some b =>
              have hb : ¬ ratioDiff ar p < b := by
                intro hlt
                exact h (decide_eq_true hlt)
              obtain ⟨b', h1, h2⟩ := facrLoop_mono ar rest b br
              exact ⟨b', h1, h2.trans (not_lt.mp hb)⟩
        · exact ih _ p hrest

lemma override1_cases (best : ℕ × ℕ) (w h S : ℕ) :
    override1 best w h S = (2, 2) ∨ override1 best w h S = best := by
  rw [override1]
  split
  · exact Or.inl rfl
  · exact Or.inr rfl

lemma applyOverrides_cases (best : ℕ × ℕ) (w h S : ℕ) :
    applyOverrides best w h S = (1, 1) ∨ applyOverrides best w h S = (2, 2) ∨
      applyOverrides best w h S = best := by
  rw [applyOverrides]
  split
  · split
    · exact Or.inl rfl
    · exact Or.inr (Or.inl rfl)
  · rcases override1_cases best w h S with he | he <;> rw [he]
    · exact Or.inr (Or.inl rfl)
    · exact Or.inr (Or.inr rfl)

lemma applyOverrides_of_small (best : ℕ × ℕ) (w h S : ℕ)
    (hb : best = (1, 1) ∨ best = (2, 2)) :
    applyOverrides best w h S =
      if w * h < S * S then (1, 1) else (2, 2) := by
  have h23 : override1 best w h S = best := by
    rw [override1, if_neg]
    rintro ⟨h1 | h1, _⟩ <;> rcases hb with h2 | h2 <;> rw [h1] at h2 <;>
      exact absurd h2 (by decide)
  rw [applyOverrides, h23, if_pos hb]

/-- C5 (amended): For every width, height and tile size, and all
`min_tiles ≤ 1`, `max_tiles ≥ 4`, the grid returned by
`find_closest_aspect_ratio` over any enumeration of candidate grids whose
products lie in `[min_tiles, max_tiles]` itself has its product in
`[min_tiles, max_tiles]`, the special-case overrides included.  (The bounds
`min_tiles ≤ 1` and `max_tiles ≥ 4` cannot be dropped: see the
counterexample.) -/
theorem best_grid_in_range (L : List (ℕ × ℕ)) (minT maxT width height S : ℕ)
    (hmin : minT ≤ 1) (hmax : 4 ≤ maxT)
    (hL : ∀ p ∈ L, minT ≤ p.1 * p.2 ∧ p.1 * p.2 ≤ maxT) :
    minT ≤ (find_closest_aspect_ratio ((width : ℚ) / (height : ℚ)) L width height S).1 *
      (find_closest_aspect_ratio ((width : ℚ) / (height : ℚ)) L width height S).2 ∧
    (find_closest_aspect_ratio ((width : ℚ) / (height : ℚ)) L width height S).1 *
      (find_closest_aspect_ratio ((width : ℚ) / (height : ℚ)) L width height S).2 ≤ maxT := by
  set ar : ℚ := (width : ℚ) / (height : ℚ)
  rw [find_closest_aspect_ratio]
  rcases applyOverrides_cases (facrLoop ar L (none, (1, 1))).2 width height S with
    he | he | he <;> rw [he]
  · exact ⟨by omega, by omega⟩
  · exact ⟨by omega, by omega⟩
  · rcases facrLoop_spec ar L (none, (1, 1)) with heq | ⟨hmem, _⟩
    · rw [heq]
      exact ⟨by simpa using hmin, by simp; omega⟩
    · exact hL _ hmem

/-- Witness for C5 (amended) at `min_tiles = 1`, `max_tiles = 6`, a
448×224 image, tile size 448, over the standard candidate enumeration. -/
theorem best_grid_in_range_witness :
    1 ≤ (find_closest_aspect_ratio ((448 : ℚ) / (224 : ℚ)) (targetRatiosList 1 6)
      448 224 448).1 *
      (find_closest_aspect_ratio ((448 : ℚ) / (224 : ℚ)) (targetRatiosList 1 6)
        448 224 448).2 :=
  (best_grid_in_range (targetRatiosList 1 6) 1 6 448 224 448 (by decide) (by decide)
    (by decide)).1

/-- C5 counterexample: with `min_tiles = 5`, `max_tiles = 6` and a
square 448×448 image at tile size 448, the search picks `(2, 3)` and the
first override downgrades it to `(2, 2)`, whose product 4 violates
`min_tiles ≤ cols*rows`: the claim fails without the bounds on
`min_tiles`/`max_tiles`. -/
theorem best_grid_in_range_counterexample :
    (∀ p ∈ targetRatiosList 5 6, 5 ≤ p.1 * p.2 ∧ p.1 * p.2 ≤ 6) ∧
    find_closest_aspect_ratio ((448 : ℚ) / (448 : ℚ)) (targetRatiosList 5 6)
      448 448 448 = (2, 2) ∧
    ¬(5 ≤ 2 * 2) :=
  ⟨by decide, of_decide_eq_true (by with_unfolding_all rfl), by decide⟩

/-- C6 (amended): For every square image (aspect ratio exactly 1) and
tile size, any `min_tiles ≤ 1` and any `max_tiles` with `4 ≤ max_tiles ≤ 8`,
over any enumeration of candidate grids containing `(1,1)`,
`find_closest_aspect_ratio` returns `(1,1)` when `width*height < tile_size²`
and `(2,2)` otherwise, regardless of the enumeration order.  (With
`max_tiles ≥ 9` the result is enumeration-order dependent: see the
counterexample.) -/
theorem best_grid_square (L : List (ℕ × ℕ)) (maxT width S : ℕ) (hw : 0 < width)
    (hmax : maxT ≤ 8) (hL : ∀ p ∈ L, 1 ≤ p.1 ∧ 1 ≤ p.2 ∧ p.1 * p.2 ≤ maxT)
    (h11 : (1, 1) ∈ L) :
    find_closest_aspect_ratio ((width : ℚ) / (width : ℚ)) L width width S =
      if width * width < S * S then (1, 1) else (2, 2) := by
  have har : ((width : ℚ) / (width : ℚ)) = 1 :=
    div_self (Nat.cast_ne_zero.mpr hw.ne')
  rw [find_closest_aspect_ratio, har]
  obtain ⟨b, hb1, hb2⟩ := facrLoop_min 1 L (none, (1, 1)) (1, 1) h11
  rcases facrLoop_spec 1 L (none, (1, 1)) with heq | ⟨hmem, hval⟩
  · rw [heq] at hb1
    exact Option.noConfusion hb1
  · rw [hval] at hb1
    obtain ⟨hp1, hp2, hpm⟩ := hL _ hmem
    have hbe : ratioDiff 1 (facrLoop 1 L (none, (1, 1))).2 = b := Option.some.inj hb1
    have hb0 : ratioDiff 1 ((1 : ℕ), (1 : ℕ)) = 0 := by
      simp [ratioDiff]
    rw [hb0] at hb2
    have hzero : ratioDiff 1 (facrLoop 1 L (none, (1, 1))).2 = 0 :=
      le_antisymm (hbe ▸ hb2) (abs_nonneg _)
    rw [ratioDiff, abs_eq_zero, sub_eq_zero] at hzero
    have hne : (((facrLoop 1 L (none, (1, 1))).2.2 : ℕ) : ℚ) ≠ 0 :=
      Nat.cast_ne_zero.mpr (by omega)
    have heqn : (facrLoop 1 L (none, (1, 1))).2.1 = (facrLoop 1 L (none, (1, 1))).2.2 := by
      have h1 : (((facrLoop 1 L (none, (1, 1))).2.1 : ℕ) : ℚ) =
          (((facrLoop 1 L (none, (1, 1))).2.2 : ℕ) : ℚ) :=
        (div_eq_one_iff_eq hne).mp hzero.symm
      exact_mod_cast h1
    have hle2 : (facrLoop 1 L (none, (1, 1))).2.1 ≤ 2 := by
      by_contra hgt
      push_neg at hgt
      have h9 : 3 * 3 ≤
          (facrLoop 1 L (none, (1, 1))).2.1 * (facrLoop 1 L (none, (1, 1))).2.2 := by
        rw [← heqn]
        exact Nat.mul_le_mul hgt hgt
      omega
    have hcase : (facrLoop 1 L (none, (1, 1))).2 = (1, 1) ∨
        (facrLoop 1 L (none, (1, 1))).2 = (2, 2) := by
      rcases Nat.lt_or_ge (facrLoop 1 L (none, (1, 1))).2.1 2 with h | h
      · exact Or.inl (Prod.ext (by omega) (by omega))
      · exact Or.inr (Prod.ext (by omega) (by omega))
    exact applyOverrides_of_small _ width width S hcase

/-- Witness for C6 (amended): a 3×3 image with tile size 2 and candidates
`(1,1), (2,2)` yields `(2,2)` since `9 ≥ 4`. -/
theorem best_grid_square_witness :
    find_closest_aspect_ratio (((3 : ℕ) : ℚ) / ((3 : ℕ) : ℚ)) [(1, 1), (2, 2)] 3 3 2 =
      (2, 2) := by
  have h := best_grid_square [(1, 1), (2, 2)] 8 3 2 (by decide) (by decide)
    (by decide) (by decide)
  rw [h]
  decide

/-- An enumeration of the candidate-grid set for `min_num = 1`,
`max_num = 9` that happens to list the square grid `(3,3)` first (Python
iterates its `set` in an unspecified order, so this order is admissible). -/
def squareFirstRatios : List (ℕ × ℕ) :=
  (3, 3) :: (targetRatiosList 1 9).filter (fun p => decide (p ≠ (3, 3)))

/-- C6 counterexample: with `min_tiles = 1 ≤ 1`, `max_tiles = 9 ≥ 4`, a
square 448×448 image and tile size 448 (area not below `tile_size²`, so the
claim demands `(2,2)`), an admissible enumeration order that lists `(3,3)`
first makes `find_closest_aspect_ratio` return `(3,3)`: `(3,3)` scores an
exact aspect match, no later candidate strictly improves, and no override
touches it.  The claim is not order-independent once `max_tiles ≥ 9`. -/
theorem best_grid_square_counterexample :
    List.Perm squareFirstRatios (targetRatiosList 1 9) ∧
    find_closest_aspect_ratio ((448 : ℚ) / (448 : ℚ)) squareFirstRatios
      448 448 448 = (3, 3) ∧
    ¬(448 * 448 < 448 * 448) ∧ ((3, 3) : ℕ × ℕ) ≠ (2, 2) :=
  ⟨of_decide_eq_true (by with_unfolding_all rfl),
    of_decide_eq_true (by with_unfolding_all rfl), by decide, by decide⟩

/-! ## InterleavedDataset shard lookup (`interleaved_dataset.py`)

`load_data` reduces the index modulo `_length`, serves it from the hot
shard when `start <= index <= end` (inclusive), and otherwise linearly
scans `shard_id_range` with the test `start <= index < end` (exclusive),
installing the found shard as the new hot shard.  `shard_id_range` maps the
shard at position `i` to `(capacity*i, capacity*(i+1) - 1)`.
-/

/-- The mutable loader state of `InterleavedDataset`: the (possibly
shuffled) shard order, the nominal per-shard capacity
(`num_samples_each_shard`), the current hot shard's name (identified by its
shard number) and the loaded hot-shard records (records abstracted as an
arbitrary type `ρ`). -/
structure ShardState (ρ : Type) where
  shardOrder : List ℕ
  capacity : ℕ
  currentShardName : ℕ
  currentShardData : List ρ
deriving DecidableEq

/-- Total length `self._length = num_samples_each_shard * <number of shards>`. -/
def dsTotalLength {ρ : Type} (st : ShardState ρ) : ℕ :=
  st.capacity * st.shardOrder.length

/-- Shard table `self.shard_id_range`: entry `i` maps shard name `shard_order[i]` to
`(num_samples_each_shard * i, num_samples_each_shard * (i+1) - 1)`,
in insertion order. -/
def shard_id_range {ρ : Type} (st : ShardState ρ) : List (ℕ × ℕ × ℕ) :=
  (List.range st.shardOrder.length).map fun i =>
    (st.shardOrder.getD i 0, st.capacity * i, st.capacity * (i + 1) - 1)

/-- The `if index >= self._length: index = index % self._length` reduction
at the top of `load_data`. -/
def reduceIndex (len index : ℕ) : ℕ := if len ≤ index then index % len else index

/-- The linear scan over `shard_id_range.items()` in `load_data`: the first
entry with `start <= index < end` (exclusive right end, unlike the
inclusive test used for the hot shard). -/
def scanShards (index : ℕ) : List (ℕ × ℕ × ℕ) → Option (ℕ × ℕ × ℕ)
  | [] => none
  | e :: rest => if e.2.1 ≤ index ∧ index < e.2.2 then some e else scanShards index rest

/-- Python `dict` lookup `self.shard_id_range[self.current_shard_name]`. -/
def currentRange {ρ : Type} (st : ShardState ρ) : Option (ℕ × ℕ) :=
  ((shard_id_range st).find? (fun e => e.1 == st.currentShardName)).map (·.2)

/-- Lookup `InterleavedDataset.load_data` (lines 166-181).  `loadShard` abstracts
`load_ann_file` followed by the seeded shuffle; `deepcopy` of a record is
the identity on pure values.  The result is the served record (if any)
paired with the updated state; a `none` record stands for Python's implicit
`None` fall-through (or an exception for a missing key / out-of-range list
index). -/
def load_data {ρ : Type} (loadShard : ℕ → List ρ) (st : ShardState ρ) (index : ℕ) :
    Option ρ × ShardState ρ :=
  let index := reduceIndex (dsTotalLength st) index
  match currentRange st with
  | none => (none, st)
  | some (start, stop) =>
    if start ≤ index ∧ index ≤ stop then
      (st.currentShardData.get? (index - start), st)
    else
      match scanShards index (shard_id_range st) with
      | some (name, s, _) =>
        ((loadShard name).get? (index - s),
          { st with currentShardName := name, currentShardData := loadShard name })
      | none => (none, st)

/-- Insertion into an ascending list, for modelling Python `sorted`. -/
def insertSorted (x : ℕ) : List ℕ → List ℕ
  | [] => [x]
  | y :: ys => if x ≤ y then x :: y :: ys else y :: insertSorted x ys

/-- Python `sorted` on a list of naturals (insertion sort). -/
def pySorted : List ℕ → List ℕ
  | [] => []
  | x :: xs => insertSorted x (pySorted xs)

/-- Self-check `InterleavedDataset.check_shard_id_range` (lines 159-164): collect
`range(start, end)` over all table values and assert that the sorted ids
start with `0, 1, ..., length - 1`. -/
def check_shard_id_range (ranges : List (ℕ × ℕ × ℕ)) (length : ℕ) : Bool :=
  (pySorted ((ranges.map (fun e => List.range' e.2.1 (e.2.2 - e.2.1))).join)).take length
    == List.range length

/-- Concrete instance for C2/C7: capacity 3, shards named 5 and 6, hot
shard 5 with its three records resident. -/
def shardStateEx : ShardState ℕ := ⟨[5, 6], 3, 5, [10, 11, 12]⟩

/-- Concrete shard loader for C2/C7: shard `n` holds `100n, 100n+1, 100n+2`. -/
def loadShardEx : ℕ → List ℕ := fun n => [100 * n, 100 * n + 1, 100 * n + 2]

/-- C2 (code bug): Index 5 lies below `_length = 6` and inside shard
6's nominal inclusive range `(3, 5)`, but outside the hot shard: the scan
tests `start <= index < end` against `end = capacity*(i+1) - 1`, so the
last index of every non-hot shard falls in a gap and `load_data` silently
returns Python `None` instead of raising a `ShardRangeGapError`.  The
code's own `check_shard_id_range` assertion rejects this very shard table,
confirming that full gap-free coverage is the intent. -/
theorem load_data_gap_returns_none :
    load_data loadShardEx shardStateEx 5 = (none, shardStateEx) ∧
    5 < dsTotalLength shardStateEx ∧
    check_shard_id_range (shard_id_range shardStateEx) (dsTotalLength shardStateEx)
      = false := by
  refine ⟨by decide, by decide, by decide⟩

lemma reduceIndex_add_len (len i : ℕ) (h : 0 < len) :
    reduceIndex len (i + len) = reduceIndex len i := by
  rw [reduceIndex, reduceIndex, if_pos (Nat.le_add_left len i)]
  rcases lt_or_le i len with hlt | hle
  · rw [if_neg (not_le.mpr hlt), Nat.add_mod_right, Nat.mod_eq_of_lt hlt]
  · rw [if_pos hle, Nat.add_mod_right]

/-- C7: From any state, `load_data(i)` and `load_data(i + total_length)`
return structurally equal results — the same served record and the same
successor state — because the index is reduced modulo `_length` before any
lookup. -/
theorem load_data_wraparound {ρ : Type} (loadShard : ℕ → List ρ) (st : ShardState ρ)
    (i : ℕ) (h : 0 < dsTotalLength st) :
    load_data loadShard st (i + dsTotalLength st) = load_data loadShard st i := by
  rw [load_data, load_data, reduceIndex_add_len _ _ h]

/-- Witness for C7 at the concrete two-shard state and index 1. -/
theorem load_data_wraparound_witness :
    0 < dsTotalLength shardStateEx ∧
    load_data loadShardEx shardStateEx (1 + dsTotalLength shardStateEx) =
      load_data loadShardEx shardStateEx 1 :=
  ⟨by decide, load_data_wraparound loadShardEx shardStateEx 1 (by decide)⟩

/-! ## JSON-lines loading (`load_json_line` / `load_jsonl`)

`load_json_line` parses a line, and on failure trims one trailing character
and retries, for up to `try_times = 20` attempts; when all attempts fail it
raises carrying the *current* (20-times-trimmed) string.  `load_jsonl`
skips lines whose stripped length is at most 2 and re-raises a per-line
failure as an error carrying the original line.
-/

/-- Python `line_str[:-1]`: drop the last character. -/
def dropLastChar (s : String) : String := s.dropRight 1

/-- Iteration of `dropLastChar`, `k` times: the state of `line_str` after `k`
failed parse attempts. -/
def trimIter (s : String) : ℕ → String
  | 0 => s
  | k + 1 => dropLastChar (trimIter s k)

/-- The retry loop of `load_json_line` with `m` attempts left; `parse`
abstracts `json.loads` (`none` models a parse exception). -/
def loadJsonLineAux {δ : Type} (parse : String → Option δ) :
    ℕ → String → Except String δ
  | 0, s => .error ("Failed to get " ++ s)
  | m + 1, s =>
    match parse s with
    | some d => .ok d
    | none => loadJsonLineAux parse m (dropLastChar s)

/-- Top level `load_json_line` with its default `try_times = 20`. -/
def load_json_line {δ : Type} (parse : String → Option δ) (line : String) :
    Except String δ :=
  loadJsonLineAux parse 20 line

/-- Python `str.strip()` on the underlying characters (drop whitespace from
both ends). -/
def pyStrip (l : List Char) : List Char :=
  ((l.dropWhile Char.isWhitespace).reverse.dropWhile Char.isWhitespace).reverse

/-- Stripped length `len(line.strip())`. -/
def stripLen (s : String) : ℕ := (pyStrip s.data).length

/-- Line loop of `load_jsonl` (lines 75-83): lines with stripped length at
most 2 are skipped; the first parse failure is re-raised as
`Failed to load line: <original line>`. -/
def load_jsonl {δ : Type} (parse : String → Option δ) :
    List String → Except String (List δ)
  | [] => .ok []
  | l :: rest =>
    if 2 < stripLen l then
      match load_json_line parse l with
      | .ok d => (load_jsonl parse rest).map (d :: ·)
      | .error _ => .error ("Failed to load line: " ++ l)
    else load_jsonl parse rest

lemma trimIter_shift (s : String) (k : ℕ) :
    trimIter (dropLastChar s) k = trimIter s (k + 1) := by
  induction k with
  | zero => rfl
  | succ m ih =>
      show dropLastChar (trimIter (dropLastChar s) m) = dropLastChar (trimIter s (m + 1))
      rw [ih]

lemma loadJsonLineAux_ok {δ : Type} (parse : String → Option δ) :
    ∀ k m s d, k < m → parse (trimIter s k) = some d →
      (∀ j, j < k → parse (trimIter s j) = none) →
      loadJsonLineAux parse m s = .ok d := by
  intro k
  induction k with
  | zero =>
      intro m s d hm hk _
      obtain ⟨m', rfl⟩ := Nat.exists_eq_succ_of_ne_zero (Nat.pos_iff_ne_zero.mp hm)
      simp only [trimIter] at hk
      rw [loadJsonLineAux, hk]
  | succ n ih =>
      intro m s d hm hk hj
      obtain ⟨m', rfl⟩ := Nat.exists_eq_succ_of_ne_zero
        (Nat.pos_iff_ne_zero.mp (Nat.lt_of_le_of_lt (Nat.zero_le _) hm))
      have h0 : parse s = none := hj 0 (Nat.succ_pos n)
      rw [loadJsonLineAux, h0]
      refine ih m' (dropLastChar s) d (Nat.lt_of_succ_lt_succ hm) ?_ ?_
      · rw [trimIter_shift]
        exact hk
      · intro j hjn
        rw [trimIter_shift]
        exact hj (j + 1) (Nat.succ_lt_succ hjn)

lemma loadJsonLineAux_fail {δ : Type} (parse : String → Option δ) :
    ∀ m s, (∀ j, j < m → parse (trimIter s j) = none) →
      loadJsonLineAux parse m s = .error ("Failed to get " ++ trimIter s m) := by
  intro m
  induction m with
  | zero => intro s _; rfl
  | succ n ih =>
      intro s hall
      have h0 : parse s = none := hall 0 (Nat.succ_pos n)
      rw [loadJsonLineAux, h0, ih (dropLastChar s) ?_, trimIter_shift]
      intro j hj
      rw [trimIter_shift]
      exact hall (j + 1) (Nat.succ_lt_succ hj)

/-- C9 (amended): For every line reaching the parser: (i) parsing
retries by trimming exactly one trailing character per attempt, so if after
`k ≤ 19` trims the line parses (and all shorter trims fail), the line loads
successfully; (ii) if all 20 attempts fail, `load_json_line` raises with
the 20-times-trimmed text and `load_jsonl` — for a line whose stripped
length exceeds 2 — re-raises an error carrying the original raw line, which
propagates (lines with stripped length at most 2 are skipped silently: see
the counterexample). -/
theorem json_line_retry {δ : Type} (parse : String → Option δ) (line : String) :
    (∀ k d, k < 20 → parse (trimIter line k) = some d →
      (∀ j, j < k → parse (trimIter line j) = none) →
      load_json_line parse line = .ok d) ∧
    ((∀ j, j < 20 → parse (trimIter line j) = none) →
      load_json_line parse line = .error ("Failed to get " ++ trimIter line 20) ∧
      (2 < stripLen line → ∀ rest,
        load_jsonl parse (line :: rest) =
          .error ("Failed to load line: " ++ line))) := by
  constructor
  · intro k d hk hparse hfail
    exact loadJsonLineAux_ok parse k 20 line d hk hparse hfail
  · intro hall
    have herr := loadJsonLineAux_fail parse 20 line hall
    refine ⟨herr, ?_⟩
    intro hlen rest
    rw [load_jsonl, if_pos hlen]
    have herr2 : load_json_line parse line =
        Except.error ("Failed to get " ++ trimIter line 20) := herr
    rw [herr2]

/-- Concrete parser for the C9 witness: accepts exactly the string
`<0>` (standing for a minimal JSON value) and rejects everything else. -/
def parseEx : String → Option ℕ := fun s => if s = "<0>" then some 7 else none

/-- Witness for C9 (amended): the line `<0>zz` succeeds after two trims;
the line `@!?#` (stripped length 4, no parseable trim) makes `load_jsonl`
fail with the original line in the message. -/
theorem json_line_retry_witness :
    load_json_line parseEx "<0>zz" = .ok 7 ∧
    load_jsonl parseEx ["@!?#"] = .error ("Failed to load line: " ++ "@!?#") := by
  constructor
  · exact (json_line_retry parseEx "<0>zz").1 2 7 (by decide)
      (of_decide_eq_true (by with_unfolding_all rfl))
      (of_decide_eq_true (by with_unfolding_all rfl))
  · exact ((json_line_retry parseEx "@!?#").2
      (of_decide_eq_true (by with_unfolding_all rfl))).2
      (of_decide_eq_true (by with_unfolding_all rfl)) []

/-- C9 counterexample: the claim quantifies over *every* JSON-Lines
line, but `load_jsonl` silently skips lines whose stripped length is at
most 2: the unparseable two-character line `ab` (every parse attempt fails)
produces no `MalformedRecord`-style error at all — `load_jsonl` returns an
empty success instead of propagating a failure. -/
theorem json_line_skip_counterexample :
    load_jsonl (fun _ => (none : Option ℕ)) ["ab"] = .ok [] ∧
    (∀ j, j < 20 → (fun _ => (none : Option ℕ)) (trimIter "ab" j) = none) :=
  ⟨by with_unfolding_all rfl, fun _ _ => rfl⟩

/-! ## Interleaved sample assembly (`InterleavedDataset.getitem`, lines 260-296)

Null text slots with a valid image become the literal `<image>`, non-empty
texts are joined with `\n\n`, delimiter-adjacent-to-placeholder artifacts
are collapsed, each `<image>` (up to the number of loaded images) becomes
`IMG_START_TOKEN + IMG_CONTEXT_TOKEN * num_image_token + IMG_END_TOKEN`,
the text is tokenized, and labels clone the ids with the three marker ids
masked to `-100`.  The external tokenizer is abstracted as a function with
the properties the added special tokens guarantee.
-/

/-- Modelled from the spec: the image start marker (`IMG_START_TOKEN` from
`internvl/train/constants.py`, which is not among the provided sources; the
spec §4.5 specifies only "a start marker" distinct from the other two). -/
def IMG_START_TOKEN : String := "<IMG_S>"

/-- Modelled from the spec: the image context marker (`IMG_CONTEXT_TOKEN`
from `internvl/train/constants.py`, not among the provided sources; the
spec specifies "a fixed-length run of context markers"). -/
def IMG_CONTEXT_TOKEN : String := "<IMG_C>"

/-- Modelled from the spec: the image end marker (`IMG_END_TOKEN` from
`internvl/train/constants.py`, not among the provided sources). -/
def IMG_END_TOKEN : String := "<IMG_E>"

/-- The substitution loop of `getitem` (lines 260-265): each null text slot
consumes one validity flag and becomes the literal `<image>` exactly when
its image is valid. -/
def substImages : List (Option String) → List Bool → List (Option String)
  | [], _ => []
  | none :: rest, true :: vr => some "<image>" :: substImages rest vr
  | none :: rest, false :: vr => none :: substImages rest vr
  | none :: rest, [] => none :: substImages rest []
  | some t :: rest, valid => some t :: substImages rest valid

/-- Python `s.replace(old, new, count)` on character lists, for a nonempty
`old`: scan left to right, replace at most `count` occurrences. -/
def replaceCount (old new : List Char) : List Char → ℕ → List Char
  | s, 0 => s
  | [], _ + 1 => []
  | c :: rest, k + 1 =>
    if h : old ≠ [] ∧ old.isPrefixOf (c :: rest) then
      new ++ replaceCount old new ((c :: rest).drop old.length) k
    else
      c :: replaceCount old new rest (k + 1)
termination_by s _ => s.length
decreasing_by
  · simp only [List.length_drop, List.length_cons]
    have h1 : 0 < old.length := List.length_pos.mpr h.1
    omega
  · simp only [List.length_cons]
    omega

/-- Python `s.replace(old, new)` on character lists, for a nonempty `old`:
replace every occurrence, left to right. -/
def replaceAll (old new : List Char) : List Char → List Char
  | [] => []
  | c :: rest =>
    if h : old ≠ [] ∧ old.isPrefixOf (c :: rest) then
      new ++ replaceAll old new ((c :: rest).drop old.length)
    else
      c :: replaceAll old new rest
termination_by s => s.length
decreasing_by
  · simp only [List.length_drop, List.length_cons]
    have h1 : 0 < old.length := List.length_pos.mpr h.1
    omega
  · simp only [List.length_cons]
    omega

/-- String-level `text.replace(old, new, count)`. -/
def pyReplaceCount (s old new : String) (count : ℕ) : String :=
  ⟨replaceCount old.data new.data s.data count⟩

/-- String-level `text.replace(old, new)`. -/
def pyReplaceAll (s old new : String) : String :=
  ⟨replaceAll old.data new.data s.data⟩

/-- Joining step of line 266: keep the non-null, non-empty
texts and join them with the double-newline delimiter. -/
def joinTexts (texts : List (Option String)) : String :=
  String.intercalate "\n\n" ((texts.filterMap id).filter (fun t => decide (t ≠ "")))

/-- Repetition `IMG_CONTEXT_TOKEN * n`. -/
def ctxRepeat (n : ℕ) : String := String.join (List.replicate n IMG_CONTEXT_TOKEN)

/-- Marker block `image_tokens` of line 269: the start marker, `n` context
markers, and the end marker concatenated. -/
def imageTokens (n : ℕ) : String := IMG_START_TOKEN ++ ctxRepeat n ++ IMG_END_TOKEN

/-- Text pipeline of `getitem` lines 260-270: substitute `<image>` into valid null slots,
join, collapse `<image>\n\n` and `\n\n<image>` artifacts, then replace up
to `len(images)` placeholders by the marker block with `n` context
markers. -/
def assembleText (texts : List (Option String)) (valid : List Bool)
    (numImages n : ℕ) : String :=
  pyReplaceCount
    (pyReplaceAll (pyReplaceAll (joinTexts (substImages texts valid))
        "<image>\n\n" "<image>")
      "\n\n<image>" "<image>")
    "<image>" (imageTokens n) numImages

/-- One masked assignment `labels[labels == x] = -100` over a token list. -/
def maskEq (l : List ℤ) (x : ℤ) : List ℤ :=
  l.map fun t => if t = x then -100 else t

/-- Label masking of `getitem` lines 286-288: mask the start, end and context marker ids to
the ignore sentinel `-100`, in that order. -/
def makeLabels (ids : List ℤ) (startId endId ctxId : ℤ) : List ℤ :=
  maskEq (maskEq (maskEq ids startId) endId) ctxId

lemma mask_step (t s e c : ℤ) :
    (if (if (if t = s then (-100 : ℤ) else t) = e then (-100 : ℤ)
        else if t = s then (-100 : ℤ) else t) = c then (-100 : ℤ)
      else if (if t = s then (-100 : ℤ) else t) = e then (-100 : ℤ)
        else if t = s then (-100 : ℤ) else t) =
    if t = s ∨ t = e ∨ t = c then (-100 : ℤ) else t := by
  by_cases h1 : t = s
  · subst h1
    simp [ite_self]
  · by_cases h2 : t = e
    · subst h2
      simp [h1, ite_self]
    · by_cases h3 : t = c
      · subst h3
        simp [h1, h2]
      · simp [h1, h2, h3]

lemma makeLabels_eq_map (ids : List ℤ) (s e c : ℤ) :
    makeLabels ids s e c =
      ids.map (fun t => if t = s ∨ t = e ∨ t = c then -100 else t) := by
  rw [makeLabels, maskEq, maskEq, maskEq, List.map_map, List.map_map]
  refine congrArg (fun f => List.map f ids) (funext fun t => ?_)
  simp only [Function.comp_apply]
  exact mask_step t s e c

/-- C8: For the interleaved record `images=[A, None]`,
`texts=[None, "caption"]`, `valid=[True]` whose single image loads: the
assembled text is exactly one marker block with `num_image_token` context
markers followed by the caption; under a tokenizer mapping each of the
three (distinct, specially added) markers to its own id, the token sequence
carries exactly `num_image_token * 1` context-marker ids, and the labels
equal the token ids everywhere except at start/context/end marker
positions, which become the ignore sentinel `-100`. -/
theorem interleaved_assembly (n : ℕ) (tok : String → List ℤ) (sId eId cId : ℤ)
    (capToks : List ℤ)
    (hsc : sId ≠ cId) (hec : eId ≠ cId)
    (hcap : ∀ t ∈ capToks, t ≠ sId ∧ t ≠ eId ∧ t ≠ cId)
    (htok : tok (assembleText [none, some "caption"] [true] 1 n) =
      sId :: (List.replicate n cId ++ eId :: capToks)) :
    assembleText [none, some "caption"] [true] 1 n = imageTokens n ++ "caption" ∧
    (tok (assembleText [none, some "caption"] [true] 1 n)).count cId = n * 1 ∧
    makeLabels (tok (assembleText [none, some "caption"] [true] 1 n)) sId eId cId =
      (tok (assembleText [none, some "caption"] [true] 1 n)).map
        (fun t => if t = sId ∨ t = eId ∨ t = cId then -100 else t) := by
  refine ⟨by with_unfolding_all rfl, ?_, makeLabels_eq_map _ _ _ _⟩
  have hmemc : cId ∉ capToks := fun hmem => ((hcap cId hmem).2.2) rfl
  rw [htok, List.count_cons, List.count_append, List.count_cons]
  rw [List.count_replicate, List.count_eq_zero.mpr hmemc]
  simp only [beq_iff_eq]
  rw [if_pos trivial, if_neg hec, if_neg hsc]
  omega

/-- A concrete tokenizer for the C8 witness: the assembled text of the
caption record at `num_image_token = 2` maps to ids `5 7 7 6 9`
(start, context, context, end, one caption token); anything else
tokenizes to the empty sequence. -/
def tokEx : String → List ℤ := fun s =>
  if s = assembleText [none, some "caption"] [true] 1 2 then [5, 7, 7, 6, 9] else []

/-- Witness for C8 at `num_image_token = 2` with marker ids 5/6/7 and a
single caption token 9. -/
theorem interleaved_assembly_witness :
    (tokEx (assembleText [none, some "caption"] [true] 1 2)).count 7 = 2 * 1 ∧
    makeLabels (tokEx (assembleText [none, some "caption"] [true] 1 2)) 5 6 7 =
      (tokEx (assembleText [none, some "caption"] [true] 1 2)).map
        (fun t => if t = 5 ∨ t = 6 ∨ t = 7 then -100 else t) := by
  have h := interleaved_assembly 2 tokEx 5 6 7 [9] (by decide) (by decide)
    (by decide) (by simp [tokEx])
  exact ⟨h.2.1, h.2.2⟩

end InternVL
